import Mathlib

/-!
# Verification of the AI-sudoku-puzzle solver (driver.py)

Shallow embedding of the Python source `src/driver.py` into Lean.

The Python program models a Sudoku board as a CSP over 81 cells named by
two-character strings `"A1" .. "I9"`.  Cell domains are strings of candidate
digit characters (here: `List Char`).  The CSP object's fields `variables`,
`contraint_sets` (sic), `sets`, `neighbors` and `constraints` are fixed data
computed once; the mutable field `values` is a mapping from cell name to its
domain, modelled as a function `String → List Char` threaded explicitly.

Python's `queue.Queue` is FIFO: `get` pops from the front and `put` appends
at the back, modelled by a `List` used as front-pop/back-push.  Both loops of
the program (the AC3 worklist and the backtracking search) are modelled with
an explicit fuel parameter returning `Option`; fuel sufficiency is proved
separately, so `none` never occurs in the runs the theorems talk about.
-/

namespace Driver

/-- `rows = "ABCDEFGHI"` from the source (iterated character-wise). -/
def rows : List Char := "ABCDEFGHI".toList

/-- `cols = "123456789"` from the source. -/
def cols : List Char := "123456789".toList

/-- `cross(X, Y) = [x + y for x in X for y in Y]`: all two-character
concatenations. -/
def cross (X Y : List Char) : List String :=
  X.flatMap (fun x => Y.map (fun y => String.mk [x, y]))

/-- `self.variables = cross(rows, cols)`: the 81 cell identifiers, row-major.
(Named `squares` here because `variables` has special meaning in Lean.) -/
def squares : List String := cross rows cols

/-- `self.contraint_sets` (sic): the 27 units — 9 columns, then 9 rows, then
9 blocks, in the order the source builds them. -/
def contraint_sets : List (List String) :=
  (cols.map (fun c => cross rows [c])) ++
  (rows.map (fun r => cross [r] cols)) ++
  (["ABC".toList, "DEF".toList, "GHI".toList].flatMap (fun rs =>
    ["123".toList, "456".toList, "789".toList].map (fun cs => cross rs cs)))

/-- `self.sets[s]`: the units that contain cell `s`. -/
def sets (s : String) : List (List String) :=
  contraint_sets.filter (fun u => s ∈ u)

/-- `self.neighbors[s] = set(sum(self.sets[s], [])) - set([s])`:
all cells sharing a unit with `s`, except `s` itself.  Python's `set`
deduplicates (modelled by `dedup`, fixing an order) and the difference with
`set([s])` removes exactly `s` (modelled by `filter`). -/
def neighbors (s : String) : List String :=
  (((sets s).flatten).dedup).filter (fun t => t ≠ s)

/-- `self.constraints = {(v, n) for v in self.variables for n in self.neighbors[v]}`:
the directed arc set.  Python iterates a set in an unspecified order; we fix
the generation order. -/
def constraints : List (String × String) :=
  squares.flatMap (fun v => (neighbors v).map (fun n => (v, n)))

/-- The mutable `csp.values` dictionary: cell name ↦ domain string. -/
abbrev Values := String → List Char

/-- The mutable `assignment` dictionary of the search. -/
abbrev Assignment := List (String × Char)

/-- Dictionary entry update `csp.values[k] = d`. -/
def updateV (v : Values) (k : String) (d : List Char) : Values :=
  fun c => if c = k then d else v c

/-- `set_values(grid)`: initial domains.  The Python loop reads `grid[i]` for
`i = 0 .. 80`; an input shorter than 81 characters raises `IndexError` mid-loop
(the partially built dict is discarded with the exception), modelled as `none`.
No other validation is performed: any character other than `'0'` — digit or
not — becomes the cell's one-element domain, and `'0'` gives the full `cols`
domain.  Cells outside the 81 dictionary keys are modelled as `[]`. -/
def set_values (grid : List Char) : Option Values :=
  if grid.length < 81 then none
  else some (fun c =>
    if c ∈ squares then
      (if grid.getD (squares.indexOf c) ' ' ≠ '0' then [grid.getD (squares.indexOf c) ' ']
       else cols)
    else [])

/-- `AC_constraint_check(csp, x, Xi, Xj)`: returns `False` as soon as some
character `c` of `csp.values[Xj]` satisfies `Xj in csp.neighbors[Xi] and c != x`,
else `True`. -/
def AC_constraint_check (v : Values) (x : Char) (Xi Xj : String) : Bool :=
  (v Xj).all (fun c => if Xj ∈ neighbors Xi ∧ c ≠ x then false else true)

/-- `BT_constraint_check(csp, x, Xi, assignment)`: `x` is legal at `Xi` iff no
already-assigned neighbor of `Xi` holds `x`. -/
def BT_constraint_check (x : Char) (Xi : String) (a : Assignment) : Bool :=
  (neighbors Xi).all (fun n =>
    match a.lookup n with
    | some y => if y = x then false else true
    | none => true)

/-- `completed(assignment)`: `set(assignment.keys()) == set(cross(rows, cols))`,
modelled as the two inclusions. -/
def completed (a : Assignment) : Bool :=
  squares.all (fun s => s ∈ a.map Prod.fst) && (a.map Prod.fst).all (fun k => k ∈ squares)

/-- `solved(csp)`: returns `False` iff some cell's domain has length `> 1`.
Note an *empty* domain passes this check. -/
def solved (v : Values) : Bool :=
  squares.all (fun c => (v c).length ≤ 1)

/-- `write(values)`: concatenate the domains in row-major cell order. -/
def write (v : Values) : List Char :=
  squares.foldl (fun out c => out ++ v c) []

/-- `select_next_var(assignment, csp)`: MRV choice — among unassigned cells, in
dictionary (row-major) order, the first one of minimal domain size (Python's
`min` with a `key` returns the first minimum).  Python raises `ValueError` on
an empty dict; that branch is unreachable (guarded by `completed`) and modelled
by a junk value. -/
def select_next_var (a : Assignment) (v : Values) : String :=
  match squares.filter (fun s => s ∉ a.map Prod.fst) with
  | [] => ""
  | h :: t => t.foldl (fun best s => if (v s).length < (v best).length then s else best) h

/-- `forward_check(csp, x, Xi)`: set `csp.values[Xi] = x` and delete `x` from
every neighbor's domain (`str.replace(x, '')` removes all occurrences). -/
def forward_check (v : Values) (x : Char) (Xi : String) : Values :=
  (neighbors Xi).foldl
    (fun vv n => updateV vv n ((vv n).filter (fun y => y ≠ x)))
    (updateV v Xi [x])

/-- One iteration of the `for x in values` loop of `revise`: if
`AC_constraint_check` passes, remove `x` from `csp.values[Xi]`
(`str.replace(x, "")`) and record `revised = True`. -/
def reviseStep (Xi Xj : String) (acc : Values × Bool) (x : Char) : Values × Bool :=
  if AC_constraint_check acc.1 x Xi Xj then
    (updateV acc.1 Xi ((acc.1 Xi).filter (fun y => y ≠ x)), true)
  else acc

/-- `revise(csp, Xi, Xj)`: for each `x` in `set(csp.values[Xi])` (a snapshot of
the distinct candidates), run `reviseStep`. -/
def revise (v : Values) (Xi Xj : String) : Values × Bool :=
  ((v Xi).dedup).foldl (reviseStep Xi Xj) (v, false)

/-- Python's `set(Xj)` where `Xj` is a *string*: the set of its characters
(as one-character strings). -/
def strChars (s : String) : List String :=
  s.toList.map (fun ch => String.mk [ch])

/-- The arcs `q.put((Xk, Xi))` for `Xk in (csp.neighbors[Xi] - set(Xj))`.
Since `set(Xj)` holds one-character strings and neighbors are two-character
strings, the difference in fact removes nothing. -/
def ac3_requeue (Xi Xj : String) : List (String × String) :=
  ((neighbors Xi).filter (fun Xk => Xk ∉ strChars Xj)).map (fun Xk => (Xk, Xi))

/-- The `while not q.empty()` worklist loop of `AC3`, with explicit fuel. -/
def ac3Loop : Nat → List (String × String) → Values → Option (Values × Bool)
  | 0, _, _ => none
  | _ + 1, [], v => some (v, true)
  | fuel + 1, (Xi, Xj) :: rest, v =>
    let r := revise v Xi Xj
    if r.2 then
      if (r.1 Xi).length = 0 then some (r.1, false)
      else ac3Loop fuel (rest ++ ac3_requeue Xi Xj) r.1
    else ac3Loop fuel rest r.1

/-- Total number of remaining candidates over the 81 cells (the fuel measure). -/
def totalSize (v : Values) : Nat :=
  (squares.map (fun c => (v c).length)).sum

/-- `AC3(csp)`: seed the queue with all of `csp.constraints` and run the loop.
The fuel `20 * totalSize v + constraints.length + 1` is proved sufficient. -/
def AC3 (v : Values) : Option (Values × Bool) :=
  ac3Loop (20 * totalSize v + constraints.length + 1) constraints v

/-- The `for x in csp.values[Xi]` loop body of `backtrack`.  The iterated
string is the snapshot taken when the loop starts (Python strings are
immutable).  `domain` is the `deepcopy` snapshot; after a failed recursive
call the source does `del assignment[Xi]` and `csp.values.update(domain)`,
which (both dicts always having exactly the 81 cell keys) restores `domain`
wholesale. -/
def btLoop (bt : Assignment → Values → Option (Bool × Values)) :
    Assignment → Values → String → List Char → Values → Option (Bool × Values)
  | _, v, _, [], _ => some (false, v)
  | a, v, Xi, x :: xs, domain =>
    if BT_constraint_check x Xi a then
      match bt ((Xi, x) :: a) (forward_check v x Xi) with
      | none => none
      | some (true, v2) => some (true, v2)
      | some (false, _) => btLoop bt a domain Xi xs domain
    else btLoop bt a v Xi xs domain

/-- `backtrack(assignment, csp)` with explicit recursion fuel (the recursion
depth is bounded by the number of unassigned cells, proved separately).
Returns `some (true, values)` for Python's `True` and `some (false, values)`
for Python's `"fail"`, paired with the `csp.values` state at return. -/
def backtrack : Nat → Assignment → Values → Option (Bool × Values)
  | 0, _, _ => none
  | fuel + 1, a, v =>
    if completed a then some (true, v)
    else
      let Xi := select_next_var a v
      btLoop (backtrack fuel) a v Xi (v Xi) v

/-- `BTS(csp) = backtrack({}, csp)`. -/
def BTS (v : Values) : Option (Bool × Values) :=
  backtrack (squares.length + 1) [] v

/-- `solver(given_sudoku_board)`: run `AC3` (its boolean result is ignored);
if `solved`, emit the board tagged `" AC3"`, otherwise run `BTS` (whose result
is also ignored — even after `"fail"` the current `csp.values` is written) and
emit the board tagged `" BTS"`. -/
def solver (v : Values) : Option (List Char) :=
  match AC3 v with
  | none => none
  | some (v1, _) =>
    if solved v1 then some (write v1 ++ (" AC3".toList))
    else
      match BTS v1 with
      | none => none
      | some (_, v2) => some (write v2 ++ (" BTS".toList))

/-! ## Board geometry facts -/

/-- Membership in `neighbors`: `d` is a neighbor of `c` iff they are distinct
and share a unit. -/
theorem mem_neighbors {c d : String} :
    d ∈ neighbors c ↔ d ≠ c ∧ ∃ u ∈ contraint_sets, c ∈ u ∧ d ∈ u := by
  simp only [neighbors, List.mem_filter, List.mem_dedup, List.mem_flatten, sets,
    decide_eq_true_eq]
  constructor
  · rintro ⟨⟨u, ⟨hu1, hu2⟩, hdu⟩, hne⟩
    exact ⟨hne, u, hu1, hu2, hdu⟩
  · rintro ⟨hne, u, hu, hcu, hdu⟩
    exact ⟨⟨u, ⟨hu, hcu⟩, hdu⟩, hne⟩

/-- The neighbor relation is symmetric (for arbitrary cell names). -/
theorem neighbors_symm {c d : String} : d ∈ neighbors c ↔ c ∈ neighbors d := by
  rw [mem_neighbors, mem_neighbors]
  constructor
  · rintro ⟨hne, u, hu, hcu, hdu⟩
    exact ⟨fun h => hne h.symm, u, hu, hdu, hcu⟩
  · rintro ⟨hne, u, hu, hdu, hcu⟩
    exact ⟨fun h => hne h.symm, u, hu, hcu, hdu⟩

/-- No cell is its own neighbor. -/
theorem not_mem_neighbors_self (c : String) : c ∉ neighbors c := by
  intro h
  exact (mem_neighbors.mp h).1 rfl

/-- Every cell of every unit is one of the 81 squares. -/
theorem units_subset_squares : ∀ u ∈ contraint_sets, ∀ s ∈ u, s ∈ squares := by decide

/-- Every unit has 9 pairwise-distinct cells. -/
theorem units_nodup_length : ∀ u ∈ contraint_sets, u.Nodup ∧ u.length = 9 := by decide

/-- Neighbors are squares. -/
theorem neighbors_subset_squares {c d : String} (h : d ∈ neighbors c) : d ∈ squares := by
  rcases mem_neighbors.mp h with ⟨-, u, hu, -, hdu⟩
  exact units_subset_squares u hu d hdu

theorem neighbors_nodup (c : String) : (neighbors c).Nodup :=
  (List.nodup_dedup _).filter _

theorem squares_nodup : squares.Nodup := by decide

theorem squares_length : squares.length = 81 := by decide

theorem cols_nodup : cols.Nodup := by decide

theorem cols_length : cols.length = 9 := by decide

/-- Each of the 81 cells has exactly 20 neighbors. -/
theorem neighbors_length : ∀ c ∈ squares, (neighbors c).length = 20 := by decide

/-- Every square name has exactly two characters. -/
theorem squares_two_chars : ∀ s ∈ squares, s.data.length = 2 := by decide

/-- Distinct cells of one unit are neighbors of each other. -/
theorem unit_mem_neighbors {u : List String} (hu : u ∈ contraint_sets) {c d : String}
    (hc : c ∈ u) (hd : d ∈ u) (hne : d ≠ c) : d ∈ neighbors c :=
  mem_neighbors.mpr ⟨hne, u, hu, hc, hd⟩

/-- Cells outside the 81 squares lie in no unit. -/
theorem sets_eq_nil_of_not_mem_squares {s : String} (h : s ∉ squares) : sets s = [] := by
  rw [sets, List.filter_eq_nil_iff]
  intro u hu hsu
  exact h (units_subset_squares u hu s (by simpa using hsu))

/-- Any cell name has at most 20 neighbors. -/
theorem neighbors_length_le (s : String) : (neighbors s).length ≤ 20 := by
  by_cases h : s ∈ squares
  · exact (neighbors_length s h).le
  · rw [neighbors, sets_eq_nil_of_not_mem_squares h]
    simp

/-! ## Pointwise behaviour of the state-mutating operations -/

theorem updateV_same (v : Values) (k : String) (d : List Char) : updateV v k d k = d :=
  if_pos rfl

theorem updateV_other (v : Values) (k : String) (d : List Char) {c : String} (h : c ≠ k) :
    updateV v k d c = v c :=
  if_neg h

/-- The neighbor-pruning fold of `forward_check`, over any duplicate-free key
list: each key's entry gets filtered once, the rest is untouched. -/
theorem foldl_prune_apply (x : Char) :
    ∀ (ks : List String), ks.Nodup → ∀ (vv : Values) (c : String),
      (ks.foldl (fun w n => updateV w n ((w n).filter (fun y => y ≠ x))) vv) c =
        if c ∈ ks then (vv c).filter (fun y => y ≠ x) else vv c := by
  intro ks
  induction ks with
  | nil => intro _ vv c; simp
  | cons n ns ih =>
    intro hnd vv c
    rcases List.nodup_cons.mp hnd with ⟨hn, hns⟩
    rw [List.foldl_cons, ih hns _ c]
    by_cases hc : c ∈ ns
    · have hcnn : c ≠ n := fun h => hn (h ▸ hc)
      rw [if_pos hc, if_pos (List.mem_cons_of_mem _ hc), updateV_other _ _ _ hcnn]
    · rw [if_neg hc]
      by_cases hcn : c = n
      · subst hcn
        rw [updateV_same, if_pos (List.mem_cons_self _ _)]
      · rw [updateV_other _ _ _ hcn, if_neg (by simp [hcn, hc])]

/-- What `forward_check` does to each cell. -/
theorem forward_check_apply (v : Values) (x : Char) (Xi c : String) :
    forward_check v x Xi c =
      if c = Xi then [x]
      else if c ∈ neighbors Xi then (v c).filter (fun y => y ≠ x) else v c := by
  rw [forward_check, foldl_prune_apply x _ (neighbors_nodup Xi)]
  by_cases hc : c = Xi
  · subst hc
    rw [if_neg (not_mem_neighbors_self c), updateV_same, if_pos rfl]
  · rw [updateV_other _ _ _ hc, if_neg hc]

/-- `AC_constraint_check` only reads the domain of `Xj`. -/
theorem AC_check_congr {v w : Values} {Xj : String} (h : v Xj = w Xj) (x : Char) (Xi : String) :
    AC_constraint_check v x Xi Xj = AC_constraint_check w x Xi Xj := by
  rw [AC_constraint_check, AC_constraint_check, h]

/-- For an actual arc (`Xj` a neighbor of `Xi`), the check passes exactly when
every candidate of `Xj` equals `x`. -/
theorem AC_check_eq_true_iff {v : Values} {x : Char} {Xi Xj : String}
    (hn : Xj ∈ neighbors Xi) :
    AC_constraint_check v x Xi Xj = true ↔ ∀ c ∈ v Xj, c = x := by
  rw [AC_constraint_check, List.all_eq_true]
  constructor
  · intro h c hc
    have := h c hc
    by_contra hne
    rw [if_pos ⟨hn, hne⟩] at this
    exact Bool.false_ne_true this
  · intro h c hc
    rw [if_neg (fun hand => hand.2 (h c hc))]

/-- The `revise` loop, unrolled: entries other than `Xi` are untouched, the
`Xi` entry keeps exactly the candidates whose check fails, and the flag is set
iff some candidate's check passed.  (`w` is the threaded state; the check only
reads `Xj`'s entry, which stays equal to `v Xj` throughout.) -/
theorem revise_foldl (v : Values) (Xi Xj : String) (hji : Xj ≠ Xi) :
    ∀ (xs : List Char) (w : Values) (b : Bool), w Xj = v Xj →
      (∀ c, c ≠ Xi → (xs.foldl (reviseStep Xi Xj) (w, b)).1 c = w c) ∧
      (xs.foldl (reviseStep Xi Xj) (w, b)).1 Xi =
        (w Xi).filter (fun y => !(decide (y ∈ xs) && AC_constraint_check v y Xi Xj)) ∧
      (xs.foldl (reviseStep Xi Xj) (w, b)).2 =
        (b || xs.any (fun y => AC_constraint_check v y Xi Xj)) := by
  intro xs
  induction xs with
  | nil =>
    intro w b _
    refine ⟨fun c _ => rfl, ?_, by simp⟩
    simp
  | cons x xs ih =>
    intro w b hw
    rw [List.foldl_cons]
    have hcheck : AC_constraint_check w x Xi Xj = AC_constraint_check v x Xi Xj :=
      AC_check_congr hw x Xi
    by_cases h : AC_constraint_check w x Xi Xj = true
    · have hv : AC_constraint_check v x Xi Xj = true := hcheck ▸ h
      rw [reviseStep, if_pos h]
      have hw' : updateV w Xi ((w Xi).filter (fun y => y ≠ x)) Xj = v Xj := by
        rw [updateV_other _ _ _ hji]; exact hw
      obtain ⟨ih1, ih2, ih3⟩ := ih (updateV w Xi ((w Xi).filter (fun y => y ≠ x))) true hw'
      refine ⟨?_, ?_, ?_⟩
      · intro c hc
        rw [ih1 c hc, updateV_other _ _ _ hc]
      · rw [ih2, updateV_same, List.filter_filter]
        apply List.filter_congr
        intro y hy
        by_cases hyx : y = x
        · subst hyx
          simp [hv]
        · simp [hyx, List.mem_cons]
      · rw [ih3, List.any_cons, hv]
        simp
    · have hv : AC_constraint_check v x Xi Xj = false := by
        rw [← hcheck]; exact Bool.not_eq_true _ ▸ h
      rw [reviseStep, if_neg h]
      obtain ⟨ih1, ih2, ih3⟩ := ih w b hw
      refine ⟨ih1, ?_, ?_⟩
      · rw [ih2]
        apply List.filter_congr
        intro y hy
        by_cases hyx : y = x
        · subst hyx
          simp [hv]
        · simp [hyx, List.mem_cons]
      · rw [ih3, List.any_cons, hv]
        simp

theorem revise_apply_other {v : Values} {Xi Xj : String} (hji : Xj ≠ Xi) {c : String}
    (hc : c ≠ Xi) : (revise v Xi Xj).1 c = v c :=
  (revise_foldl v Xi Xj hji _ v false rfl).1 c hc

theorem revise_apply_self {v : Values} {Xi Xj : String} (hji : Xj ≠ Xi) :
    (revise v Xi Xj).1 Xi = (v Xi).filter (fun y => !(AC_constraint_check v y Xi Xj)) := by
  rw [revise, (revise_foldl v Xi Xj hji _ v false rfl).2.1]
  apply List.filter_congr
  intro y hy
  rw [decide_eq_true (List.mem_dedup.mpr hy), Bool.true_and]

theorem revise_snd_any {v : Values} {Xi Xj : String} (hji : Xj ≠ Xi) :
    (revise v Xi Xj).2 = (v Xi).any (fun y => AC_constraint_check v y Xi Xj) := by
  rw [revise, (revise_foldl v Xi Xj hji _ v false rfl).2.2, Bool.false_or]
  rw [Bool.eq_iff_iff]
  simp only [List.any_eq_true, List.mem_dedup]

theorem revise_subset {v : Values} {Xi Xj : String} (hji : Xj ≠ Xi) (c : String) :
    (revise v Xi Xj).1 c ⊆ v c := by
  by_cases hc : c = Xi
  · subst hc
    rw [revise_apply_self hji]
    exact fun y hy => (List.mem_filter.mp hy).1
  · rw [revise_apply_other hji hc]
    exact fun y hy => hy

theorem revise_false_eq {v : Values} {Xi Xj : String} (hji : Xj ≠ Xi)
    (h : (revise v Xi Xj).2 = false) : (revise v Xi Xj).1 = v := by
  rw [revise_snd_any hji] at h
  funext c
  by_cases hc : c = Xi
  · subst hc
    rw [revise_apply_self hji]
    rw [List.filter_eq_self]
    intro a ha
    rw [List.any_eq_false] at h
    simpa using h a ha
  · rw [revise_apply_other hji hc]

theorem revise_true_length {v : Values} {Xi Xj : String} (hji : Xj ≠ Xi)
    (h : (revise v Xi Xj).2 = true) :
    ((revise v Xi Xj).1 Xi).length < (v Xi).length := by
  rw [revise_snd_any hji, List.any_eq_true] at h
  obtain ⟨y, hy, hcy⟩ := h
  rw [revise_apply_self hji]
  apply Nat.lt_of_le_of_ne (List.length_filter_le _ _)
  intro heq
  have := List.filter_length_eq_length.mp heq y hy
  rw [hcy] at this
  exact Bool.false_ne_true this

/-! ## Solutions and soundness of propagation -/

/-- `sol` is a (total) candidate board lying inside the current domains. -/
def SolIn (sol : String → Char) (v : Values) : Prop :=
  ∀ c ∈ squares, sol c ∈ v c

/-- `sol` is a valid Sudoku board: digits everywhere, and distinct values on
every pair of neighboring cells. -/
def goodSol (sol : String → Char) : Prop :=
  (∀ c ∈ squares, sol c ∈ cols) ∧ ∀ c ∈ squares, ∀ d ∈ neighbors c, sol d ≠ sol c

/-- Revising an actual arc never removes the value a valid solution would put
in `Xi` (the check passing for `sol Xi` would force `sol Xj = sol Xi`). -/
theorem revise_solin {sol : String → Char} {v : Values} {Xi Xj : String}
    (hXi : Xi ∈ squares) (hn : Xj ∈ neighbors Xi)
    (hgood : goodSol sol) (hin : SolIn sol v) : SolIn sol (revise v Xi Xj).1 := by
  have hji : Xj ≠ Xi := fun h => not_mem_neighbors_self Xi (h ▸ hn)
  intro c hc
  by_cases hcXi : c = Xi
  · subst hcXi
    rw [revise_apply_self hji, List.mem_filter]
    refine ⟨hin c hc, ?_⟩
    cases hb : AC_constraint_check v (sol c) c Xj with
    | false => rfl
    | true =>
      exfalso
      have hall := (AC_check_eq_true_iff hn).mp hb
      have hXjsq : Xj ∈ squares := neighbors_subset_squares hn
      have : sol Xj = sol c := hall (sol Xj) (hin Xj hXjsq)
      exact hgood.2 c hc Xj hn this
  · rw [revise_apply_other hji hcXi]
    exact hin c hc

/-! ## The AC3 worklist loop -/

/-- Invariant of the AC3 worklist: every queued pair is a real arc. -/
def QInv (q : List (String × String)) : Prop :=
  ∀ p ∈ q, p.1 ∈ squares ∧ p.2 ∈ neighbors p.1

/-- Python's attempted exclusion `csp.neighbors[Xi] - set(Xj)` removes nothing:
`set(Xj)` holds the one-character strings of `Xj`'s characters, while every
neighbor is a two-character square name. -/
theorem ac3_requeue_eq (Xi Xj : String) :
    ac3_requeue Xi Xj = (neighbors Xi).map (fun Xk => (Xk, Xi)) := by
  rw [ac3_requeue]
  congr 1
  rw [List.filter_eq_self]
  intro Xk hXk
  have h2 : Xk.data.length = 2 :=
    squares_two_chars Xk (neighbors_subset_squares (c := Xi) hXk)
  simp only [decide_eq_true_eq, strChars, List.mem_map]
  rintro ⟨ch, -, hch⟩
  rw [← hch] at h2
  simp at h2

theorem qinv_append {q r : List (String × String)} (hq : QInv q) (hr : QInv r) :
    QInv (q ++ r) := by
  intro p hp
  rcases List.mem_append.mp hp with h | h
  · exact hq p h
  · exact hr p h

theorem qinv_requeue {Xi Xj : String} : QInv (ac3_requeue Xi Xj) := by
  rw [ac3_requeue_eq]
  rintro p hp
  rcases List.mem_map.mp hp with ⟨Xk, hXk, rfl⟩
  exact ⟨neighbors_subset_squares hXk, neighbors_symm.mp hXk⟩

theorem qinv_constraints : QInv constraints := by
  rintro p hp
  rcases List.mem_flatMap.mp hp with ⟨s, hs, hp'⟩
  rcases List.mem_map.mp hp' with ⟨n, hn, rfl⟩
  exact ⟨hs, hn⟩

/-- Any result state of the loop is pointwise contained in the entry state. -/
theorem ac3Loop_subset :
    ∀ (fuel : Nat) (q : List (String × String)) (v v' : Values) (b : Bool), QInv q →
      ac3Loop fuel q v = some (v', b) → ∀ c, v' c ⊆ v c := by
  intro fuel
  induction fuel with
  | zero => intro q v v' b _ h; exact absurd h (by rw [ac3Loop]; exact Option.noConfusion)
  | succ fuel ih =>
    intro q v v' b hq h
    match q with
    | [] =>
      rw [ac3Loop] at h
      obtain ⟨rfl, -⟩ : v = v' ∧ true = b := by
        injection h with h'; injection h' with h1 h2; exact ⟨h1, h2⟩
      exact fun c y hy => hy
    | (Xi, Xj) :: rest =>
      have harc := hq (Xi, Xj) (List.mem_cons_self _ _)
      have hji : Xj ≠ Xi := fun he => not_mem_neighbors_self Xi (he ▸ harc.2)
      rw [ac3Loop] at h
      by_cases hrev : (revise v Xi Xj).2 = true
      · rw [if_pos hrev] at h
        by_cases hlen : ((revise v Xi Xj).1 Xi).length = 0
        · rw [if_pos hlen] at h
          obtain ⟨rfl, -⟩ : (revise v Xi Xj).1 = v' ∧ false = b := by
            injection h with h'; injection h' with h1 h2; exact ⟨h1, h2⟩
          exact fun c => revise_subset hji c
        · rw [if_neg hlen] at h
          have hq' : QInv (rest ++ ac3_requeue Xi Xj) :=
            qinv_append (fun p hp => hq p (List.mem_cons_of_mem _ hp)) qinv_requeue
          intro c
          exact fun y hy => revise_subset hji c (ih _ _ _ b hq' h c hy)
      · rw [if_neg hrev] at h
        have hveq : (revise v Xi Xj).1 = v :=
          revise_false_eq hji (Bool.not_eq_true _ ▸ hrev)
        rw [hveq] at h
        exact ih _ _ _ b (fun p hp => hq p (List.mem_cons_of_mem _ hp)) h

/-- The loop never removes a valid solution from the domains. -/
theorem ac3Loop_solin {sol : String → Char} (hgood : goodSol sol) :
    ∀ (fuel : Nat) (q : List (String × String)) (v v' : Values) (b : Bool), QInv q →
      SolIn sol v → ac3Loop fuel q v = some (v', b) → SolIn sol v' := by
  intro fuel
  induction fuel with
  | zero => intro q v v' b _ _ h; exact absurd h (by rw [ac3Loop]; exact Option.noConfusion)
  | succ fuel ih =>
    intro q v v' b hq hin h
    match q with
    | [] =>
      rw [ac3Loop] at h
      obtain ⟨rfl, -⟩ : v = v' ∧ true = b := by
        injection h with h'; injection h' with h1 h2; exact ⟨h1, h2⟩
      exact hin
    | (Xi, Xj) :: rest =>
      have harc := hq (Xi, Xj) (List.mem_cons_self _ _)
      have hji : Xj ≠ Xi := fun he => not_mem_neighbors_self Xi (he ▸ harc.2)
      have hin' : SolIn sol (revise v Xi Xj).1 := revise_solin harc.1 harc.2 hgood hin
      rw [ac3Loop] at h
      by_cases hrev : (revise v Xi Xj).2 = true
      · rw [if_pos hrev] at h
        by_cases hlen : ((revise v Xi Xj).1 Xi).length = 0
        · rw [if_pos hlen] at h
          obtain ⟨rfl, -⟩ : (revise v Xi Xj).1 = v' ∧ false = b := by
            injection h with h'; injection h' with h1 h2; exact ⟨h1, h2⟩
          exact hin'
        · rw [if_neg hlen] at h
          exact ih _ _ _ b
            (qinv_append (fun p hp => hq p (List.mem_cons_of_mem _ hp)) qinv_requeue) hin' h
      · rw [if_neg hrev] at h
        rw [revise_false_eq hji (Bool.not_eq_true _ ▸ hrev)] at h
        exact ih _ _ _ b (fun p hp => hq p (List.mem_cons_of_mem _ hp)) hin h

/-- Changing one entry of the state to a strictly shorter list strictly
decreases the summed length over any duplicate-free list containing it. -/
theorem sum_length_lt {v w : Values} {Xi : String} :
    ∀ (l : List String), l.Nodup → Xi ∈ l → (∀ c, c ≠ Xi → w c = v c) →
      (w Xi).length < (v Xi).length →
      (l.map (fun c => (w c).length)).sum < (l.map (fun c => (v c).length)).sum := by
  intro l
  induction l with
  | nil => intro _ h; exact absurd h (List.not_mem_nil _)
  | cons s l ih =>
    intro hnd hXi hoth hlt
    rcases List.nodup_cons.mp hnd with ⟨hs, hl⟩
    rw [List.map_cons, List.map_cons, List.sum_cons, List.sum_cons]
    rcases List.mem_cons.mp hXi with rfl | hXi'
    · have heq : ∀ c ∈ l, (w c).length = (v c).length := by
        intro c hc
        rw [hoth c (fun he => hs (he ▸ hc))]
      rw [List.map_congr_left heq]
      exact Nat.add_lt_add_right hlt _
    · have hsXi : s ≠ Xi := fun he => hs (he ▸ hXi')
      rw [hoth s hsXi]
      exact Nat.add_lt_add_left (ih hl hXi' hoth hlt) _

/-- The requeued arc list has at most 20 entries. -/
theorem ac3_requeue_length_le (Xi Xj : String) : (ac3_requeue Xi Xj).length ≤ 20 := by
  rw [ac3_requeue_eq, List.length_map]
  exact neighbors_length_le Xi

/-- Fuel adequacy: the loop terminates within `20 * totalSize v + q.length`
steps (each iteration either shortens the queue or removes a candidate while
enqueueing at most 20 arcs). -/
theorem ac3Loop_ne_none :
    ∀ (fuel : Nat) (q : List (String × String)) (v : Values), QInv q →
      20 * totalSize v + q.length < fuel → ac3Loop fuel q v ≠ none := by
  intro fuel
  induction fuel with
  | zero => intro q v _ h; exact absurd h (Nat.not_lt_zero _)
  | succ fuel ih =>
    intro q v hq hlt
    match q with
    | [] => rw [ac3Loop]; exact Option.noConfusion
    | (Xi, Xj) :: rest =>
      have harc := hq (Xi, Xj) (List.mem_cons_self _ _)
      have hji : Xj ≠ Xi := fun he => not_mem_neighbors_self Xi (he ▸ harc.2)
      rw [ac3Loop]
      by_cases hrev : (revise v Xi Xj).2 = true
      · rw [if_pos hrev]
        by_cases hlen : ((revise v Xi Xj).1 Xi).length = 0
        · rw [if_pos hlen]; exact Option.noConfusion
        · rw [if_neg hlen]
          apply ih _ _ (qinv_append (fun p hp => hq p (List.mem_cons_of_mem _ hp)) qinv_requeue)
          have hsize : totalSize (revise v Xi Xj).1 < totalSize v := by
            apply sum_length_lt squares squares_nodup harc.1
              (fun c hc => revise_apply_other hji hc) (revise_true_length hji hrev)
          have hq20 : (rest ++ ac3_requeue Xi Xj).length ≤ rest.length + 20 := by
            rw [List.length_append]
            exact Nat.add_le_add_left (ac3_requeue_length_le Xi Xj) _
          calc 20 * totalSize (revise v Xi Xj).1 + (rest ++ ac3_requeue Xi Xj).length
              ≤ 20 * totalSize (revise v Xi Xj).1 + (rest.length + 20) :=
                Nat.add_le_add_left hq20 _
            _ ≤ 20 * (totalSize v - 1) + (rest.length + 20) := by
                apply Nat.add_le_add_right
                exact Nat.mul_le_mul_left 20 (Nat.le_sub_one_of_lt hsize)
            _ < 20 * totalSize v + rest.length + 1 := by
                have h1 : 1 ≤ totalSize v := Nat.lt_of_lt_of_le (Nat.zero_lt_of_lt hsize)
                  (Nat.le_refl _) |>.trans_le (Nat.le_refl _) |> fun _ => Nat.one_le_iff_ne_zero.mpr
                    (fun h0 => by omega)
                omega
            _ ≤ fuel := by
                have := hlt
                simp only [List.length_cons] at this
                omega
      · rw [if_neg hrev]
        rw [revise_false_eq hji (Bool.not_eq_true _ ▸ hrev)]
        apply ih _ _ (fun p hp => hq p (List.mem_cons_of_mem _ hp))
        simp only [List.length_cons] at hlt
        omega

/-! ## The backtracking search -/

theorem lookup_mem {a : Assignment} {c : String} {y : Char} (h : a.lookup c = some y) :
    (c, y) ∈ a := by
  rcases List.lookup_eq_some_iff.mp h with ⟨l₁, l₂, rfl, -⟩
  simp

theorem lookup_of_mem_nodup {a : Assignment} {c : String} {y : Char}
    (hnd : (a.map Prod.fst).Nodup) (h : (c, y) ∈ a) : a.lookup c = some y := by
  induction a with
  | nil => exact absurd h (List.not_mem_nil _)
  | cons p a ih =>
    rw [List.map_cons, List.nodup_cons] at hnd
    rcases List.mem_cons.mp h with rfl | hmem
    · exact List.lookup_cons_self
    · rw [List.lookup_cons]
      have hcp : (c == p.1) = false := by
        rw [beq_eq_false_iff_ne]
        intro he
        exact hnd.1 (he ▸ (List.mem_map.mpr ⟨(c, y), hmem, rfl⟩))
      rw [hcp]
      exact ih hnd.2 hmem

theorem lookup_none_iff {a : Assignment} {c : String} :
    a.lookup c = none ↔ c ∉ a.map Prod.fst := by
  rw [List.lookup_eq_none_iff]
  constructor
  · intro h hc
    rcases List.mem_map.mp hc with ⟨p, hp, rfl⟩
    simpa using h p hp
  · intro h p hp
    have : p.1 ∈ a.map Prod.fst := List.mem_map.mpr ⟨p, hp, rfl⟩
    have hne : c ≠ p.1 := fun he => h (he ▸ this)
    simpa using hne

/-- The running minimum of the MRV fold is an element of the candidate list. -/
theorem foldl_min_mem (v : Values) :
    ∀ (t : List String) (h : String),
      t.foldl (fun best s => if (v s).length < (v best).length then s else best) h ∈ h :: t := by
  intro t
  induction t with
  | nil => intro h; exact List.mem_cons_self _ _
  | cons s t ih =>
    intro h
    rw [List.foldl_cons]
    by_cases hc : (v s).length < (v h).length
    · rw [if_pos hc]
      exact List.mem_cons_of_mem _ (ih s)
    · rw [if_neg hc]
      rcases List.mem_cons.mp (ih h) with h1 | h1
      · rw [h1]
        exact List.mem_cons_self _ _
      · exact List.mem_cons_of_mem _ (List.mem_cons_of_mem _ h1)

/-- If the board is not complete (and the keys are squares), some square is
unassigned. -/
theorem unassigned_ne_nil {a : Assignment}
    (hkeys : ∀ k ∈ a.map Prod.fst, k ∈ squares) (h : completed a = false) :
    squares.filter (fun s => s ∉ a.map Prod.fst) ≠ [] := by
  intro hnil
  rw [List.filter_eq_nil_iff] at hnil
  rw [completed] at h
  have h1 : (squares.all (fun s => decide (s ∈ a.map Prod.fst))) = true := by
    rw [List.all_eq_true]
    intro s hs
    have := hnil s hs
    simp only [decide_eq_true_eq] at this ⊢
    exact not_not.mp this
  have h2 : ((a.map Prod.fst).all (fun k => decide (k ∈ squares))) = true := by
    rw [List.all_eq_true]
    intro k hk
    exact decide_eq_true (hkeys k hk)
  rw [h1, h2] at h
  exact Bool.noConfusion h

/-- The MRV-selected cell is an unassigned square. -/
theorem select_next_var_spec {a : Assignment} {v : Values}
    (hkeys : ∀ k ∈ a.map Prod.fst, k ∈ squares) (h : completed a = false) :
    select_next_var a v ∈ squares ∧ select_next_var a v ∉ a.map Prod.fst := by
  have hne := unassigned_ne_nil hkeys h
  rw [select_next_var]
  cases hm : squares.filter (fun s => s ∉ a.map Prod.fst) with
  | nil => exact absurd hm hne
  | cons hh tt =>
    have hmem := foldl_min_mem v tt hh
    rw [← hm] at hmem
    have := List.mem_filter.mp hmem
    exact ⟨this.1, by simpa using this.2⟩

/-- Assigning a fresh square decreases the number of unassigned squares by 1. -/
theorem unassigned_length_cons {a : Assignment} {Xi : String} {x : Char}
    (hXi : Xi ∈ squares) (hnot : Xi ∉ a.map Prod.fst) :
    (squares.filter (fun s => s ∉ ((Xi, x) :: a).map Prod.fst)).length + 1 =
      (squares.filter (fun s => s ∉ a.map Prod.fst)).length := by
  have hstep : squares.filter (fun s => s ∉ ((Xi, x) :: a).map Prod.fst) =
      (squares.filter (fun s => s ∉ a.map Prod.fst)).filter (fun s => s ≠ Xi) := by
    rw [List.filter_filter]
    apply List.filter_congr
    intro s _
    by_cases h1 : s = Xi
    · subst h1
      simp
    · by_cases h2 : s ∈ a.map Prod.fst <;> simp [h1, h2]
  have hXimem : Xi ∈ squares.filter (fun s => s ∉ a.map Prod.fst) :=
    List.mem_filter.mpr ⟨hXi, by simpa using hnot⟩
  have hnd : (squares.filter (fun s => s ∉ a.map Prod.fst)).Nodup :=
    squares_nodup.filter _
  have herase : (squares.filter (fun s => s ∉ a.map Prod.fst)).filter (fun s => s ≠ Xi) =
      (squares.filter (fun s => s ∉ a.map Prod.fst)).erase Xi := by
    rw [hnd.erase_eq_filter]
    apply List.filter_congr
    intro s _
    by_cases h : s = Xi <;> simp [h]
  rw [hstep, herase, List.length_erase_of_mem hXimem]
  have : 1 ≤ (squares.filter (fun s => s ∉ a.map Prod.fst)).length :=
    List.length_pos.mpr (fun he => by rw [he] at hXimem; exact List.not_mem_nil _ hXimem)
  omega

/-- Fuel adequacy for the search: fuel exceeding the number of unassigned
squares never runs out. -/
theorem backtrack_ne_none :
    ∀ (fuel : Nat) (a : Assignment) (v : Values),
      (∀ k ∈ a.map Prod.fst, k ∈ squares) →
      (squares.filter (fun s => s ∉ a.map Prod.fst)).length < fuel →
      backtrack fuel a v ≠ none := by
  intro fuel
  induction fuel with
  | zero => intro a v _ h; exact absurd h (Nat.not_lt_zero _)
  | succ fuel ih =>
    intro a v hkeys hlt
    rw [backtrack]
    by_cases hcomp : completed a = true
    · rw [if_pos hcomp]
      exact Option.noConfusion
    · rw [if_neg hcomp]
      obtain ⟨hXisq, hXina⟩ :=
        select_next_var_spec hkeys (Bool.not_eq_true _ ▸ hcomp)
      have hloop : ∀ (xs : List Char) (w dom : Values),
          btLoop (backtrack fuel) a w (select_next_var a v) xs dom ≠ none := by
        intro xs
        induction xs with
        | nil => intro w dom; rw [btLoop]; exact Option.noConfusion
        | cons x xs ihx =>
          intro w dom
          rw [btLoop]
          by_cases hbt : BT_constraint_check x (select_next_var a v) a = true
          · rw [if_pos hbt]
            have hrec : backtrack fuel ((select_next_var a v, x) :: a)
                (forward_check w x (select_next_var a v)) ≠ none := by
              apply ih
              · intro k hk
                rw [List.map_cons] at hk
                rcases List.mem_cons.mp hk with rfl | hk'
                · exact hXisq
                · exact hkeys k hk'
              · have := @unassigned_length_cons a (select_next_var a v) x hXisq hXina
                omega
            cases hres : backtrack fuel ((select_next_var a v, x) :: a)
                (forward_check w x (select_next_var a v)) with
            | none => exact absurd hres hrec
            | some p =>
              match p with
              | (true, v2) => exact Option.noConfusion
              | (false, v2) => exact ihx dom dom
          · rw [if_neg hbt]
            exact ihx w dom
      exact hloop (v (select_next_var a v)) v v

/-- On the `"fail"` path, the candidate loop leaves `csp.values` at either its
entry value or the `deepcopy` snapshot (to which every failed branch is
restored wholesale by `csp.values.update(domain)`). -/
theorem btLoop_fail {bt : Assignment → Values → Option (Bool × Values)} :
    ∀ (xs : List Char) (a : Assignment) (v : Values) (Xi : String) (domain r : Values),
      btLoop bt a v Xi xs domain = some (false, r) → r = v ∨ r = domain := by
  intro xs
  induction xs with
  | nil =>
    intro a v Xi domain r h
    rw [btLoop] at h
    left
    injection h with h'
    injection h' with h1 h2
    exact h2.symm
  | cons x xs ih =>
    intro a v Xi domain r h
    rw [btLoop] at h
    by_cases hbt : BT_constraint_check x Xi a = true
    · rw [if_pos hbt] at h
      cases hres : bt ((Xi, x) :: a) (forward_check v x Xi) with
      | none =>
        rw [hres] at h
        exact Option.noConfusion h
      | some p =>
        rw [hres] at h
        match p with
        | (true, v2) =>
          exfalso
          injection h with h'
          injection h' with h1 h2
          exact Bool.noConfusion h1
        | (false, v2) =>
          rcases ih _ _ _ _ _ h with h1 | h1 <;> exact Or.inr h1
    · rw [if_neg hbt] at h
      exact ih _ _ _ _ _ h

/-- The BT check always passes for the value a valid solution (consistent with
the current assignment) would place at `Xi`. -/
theorem BT_check_sol {sol : String → Char} {a : Assignment} {Xi : String}
    (hgood : goodSol sol) (hXi : Xi ∈ squares) (hagree : ∀ p ∈ a, sol p.1 = p.2) :
    BT_constraint_check (sol Xi) Xi a = true := by
  rw [BT_constraint_check, List.all_eq_true]
  intro n hn
  cases hl : a.lookup n with
  | none => rfl
  | some y =>
    have hsn : sol n = y := hagree _ (lookup_mem hl)
    have hne : sol n ≠ sol Xi := hgood.2 Xi hXi n hn
    show (if y = sol Xi then false else true) = true
    rw [if_neg (fun he => hne (hsn ▸ he))]

/-- Forward checking with the solution's value keeps the solution inside all
domains. -/
theorem forward_check_solin {sol : String → Char} {v : Values} {Xi : String}
    (hgood : goodSol sol) (hXi : Xi ∈ squares) (hin : SolIn sol v) :
    SolIn sol (forward_check v (sol Xi) Xi) := by
  intro c hc
  rw [forward_check_apply]
  by_cases h1 : c = Xi
  · subst h1
    rw [if_pos rfl]
    exact List.mem_singleton.mpr rfl
  · rw [if_neg h1]
    by_cases h2 : c ∈ neighbors Xi
    · rw [if_pos h2, List.mem_filter]
      exact ⟨hin c hc, decide_eq_true (hgood.2 Xi hXi c h2)⟩
    · rw [if_neg h2]
      exact hin c hc

/-- Completeness of the search: if a valid solution lies inside the current
domains and extends the current assignment, `backtrack` (with adequate fuel)
succeeds. -/
theorem backtrack_complete {sol : String → Char} (hgood : goodSol sol) :
    ∀ (fuel : Nat) (a : Assignment) (v : Values),
      (∀ k ∈ a.map Prod.fst, k ∈ squares) →
      (∀ p ∈ a, sol p.1 = p.2) →
      SolIn sol v →
      (squares.filter (fun s => s ∉ a.map Prod.fst)).length < fuel →
      ∃ v', backtrack fuel a v = some (true, v') := by
  intro fuel
  induction fuel with
  | zero => intro a v _ _ _ h; exact absurd h (Nat.not_lt_zero _)
  | succ fuel ih =>
    intro a v hkeys hagree hin hlt
    rw [backtrack]
    by_cases hcomp : completed a = true
    · rw [if_pos hcomp]
      exact ⟨v, rfl⟩
    · rw [if_neg hcomp]
      obtain ⟨hXisq, hXina⟩ :=
        select_next_var_spec hkeys (Bool.not_eq_true _ ▸ hcomp)
      have hkeys' : ∀ (x : Char), ∀ k ∈ ((select_next_var a v, x) :: a).map Prod.fst,
          k ∈ squares := by
        intro x k hk
        rw [List.map_cons] at hk
        rcases List.mem_cons.mp hk with rfl | hk'
        · exact hXisq
        · exact hkeys k hk'
      have hcount' : ∀ (x : Char),
          (squares.filter
            (fun s => s ∉ ((select_next_var a v, x) :: a).map Prod.fst)).length < fuel := by
        intro x
        have := @unassigned_length_cons a (select_next_var a v) x hXisq hXina
        omega
      have hloop : ∀ (xs : List Char), sol (select_next_var a v) ∈ xs →
          ∃ v', btLoop (backtrack fuel) a v (select_next_var a v) xs v =
            some (true, v') := by
        intro xs
        induction xs with
        | nil => intro h; exact absurd h (List.not_mem_nil _)
        | cons x xs ihx =>
          intro hmem
          rw [btLoop]
          by_cases hx : x = sol (select_next_var a v)
          · rw [hx]
            rw [if_pos (BT_check_sol hgood hXisq hagree)]
            obtain ⟨v', hv'⟩ := ih
              ((select_next_var a v, sol (select_next_var a v)) :: a)
              (forward_check v (sol (select_next_var a v)) (select_next_var a v))
              (hkeys' _)
              (by
                intro p hp
                rcases List.mem_cons.mp hp with rfl | hp'
                · rfl
                · exact hagree p hp')
              (forward_check_solin hgood hXisq hin)
              (hcount' _)
            rw [hv']
            exact ⟨v', rfl⟩
          · by_cases hbt : BT_constraint_check x (select_next_var a v) a = true
            · rw [if_pos hbt]
              cases hres : backtrack fuel ((select_next_var a v, x) :: a)
                  (forward_check v x (select_next_var a v)) with
              | none =>
                exact absurd hres (backtrack_ne_none fuel _ _ (hkeys' x) (hcount' x))
              | some p =>
                match p with
                | (true, v2) => exact ⟨v2, rfl⟩
                | (false, v2) =>
                  apply ihx
                  rcases List.mem_cons.mp hmem with h1 | h1
                  · exact absurd h1.symm hx
                  · exact h1
            · rw [if_neg hbt]
              apply ihx
              rcases List.mem_cons.mp hmem with h1 | h1
              · exact absurd h1.symm hx
              · exact h1
      exact hloop (v (select_next_var a v)) (hin _ hXisq)

/-- Forward checking only shrinks domains (the assigned cell's candidate was
taken from its own domain). -/
theorem forward_check_subset {v : Values} {x : Char} {Xi : String} (hx : x ∈ v Xi)
    (c : String) : forward_check v x Xi c ⊆ v c := by
  rw [forward_check_apply]
  by_cases h1 : c = Xi
  · subst h1
    rw [if_pos rfl]
    intro y hy
    rw [List.mem_singleton.mp hy]
    exact hx
  · rw [if_neg h1]
    by_cases h2 : c ∈ neighbors Xi
    · rw [if_pos h2]
      exact fun y hy => (List.mem_filter.mp hy).1
    · rw [if_neg h2]
      exact fun y hy => hy

/-- Soundness of the search: a successful `backtrack` run ends with every
square's domain a singleton digit, neighboring cells holding different
digits, and every domain contained in its entry value. -/
theorem backtrack_sound :
    ∀ (fuel : Nat) (a : Assignment) (v v' : Values),
      (∀ k ∈ a.map Prod.fst, k ∈ squares) →
      (a.map Prod.fst).Nodup →
      (∀ p ∈ a, v p.1 = [p.2]) →
      (∀ p ∈ a, ∀ q ∈ a, q.1 ∈ neighbors p.1 → q.2 ≠ p.2) →
      (∀ c ∈ squares, ∀ y ∈ v c, y ∈ cols) →
      backtrack fuel a v = some (true, v') →
      (∀ c, v' c ⊆ v c) ∧
      (∀ c ∈ squares, ∃ d, v' c = [d] ∧ d ∈ cols) ∧
      (∀ c ∈ squares, ∀ n ∈ neighbors c, v' n ≠ v' c) := by
  intro fuel
  induction fuel with
  | zero =>
    intro a v v' _ _ _ _ _ h
    rw [backtrack] at h
    exact Option.noConfusion h
  | succ fuel ih =>
    intro a v v' hkeys hnd hmatch hcons hdig h
    rw [backtrack] at h
    by_cases hcomp : completed a = true
    · rw [if_pos hcomp] at h
      have hv : v = v' := by simpa using h
      subst hv
      have hcov : ∀ s ∈ squares, s ∈ a.map Prod.fst := by
        rw [completed, Bool.and_eq_true, List.all_eq_true] at hcomp
        intro s hs
        simpa using hcomp.1 s hs
      refine ⟨fun c y hy => hy, ?_, ?_⟩
      · intro c hc
        rcases List.mem_map.mp (hcov c hc) with ⟨p, hp, rfl⟩
        exact ⟨p.2, hmatch p hp, by
          have := hdig p.1 hc
          rw [hmatch p hp] at this
          exact this p.2 (List.mem_singleton.mpr rfl)⟩
      · intro c hc n hn
        have hnsq := neighbors_subset_squares hn
        rcases List.mem_map.mp (hcov c hc) with ⟨p, hp, rfl⟩
        rcases List.mem_map.mp (hcov n hnsq) with ⟨q, hq, rfl⟩
        rw [hmatch p hp, hmatch q hq]
        intro he
        injection he with he1 he2
        exact hcons p hp q hq hn he1
    · rw [if_neg hcomp] at h
      obtain ⟨hXisq, hXina⟩ :=
        select_next_var_spec hkeys (Bool.not_eq_true _ ▸ hcomp)
      -- the inner candidate loop, with the threaded state equal to the snapshot
      suffices hloop : ∀ (xs : List Char), (∀ y ∈ xs, y ∈ v (select_next_var a v)) →
          btLoop (backtrack fuel) a v (select_next_var a v) xs v = some (true, v') →
          (∀ c, v' c ⊆ v c) ∧
          (∀ c ∈ squares, ∃ d, v' c = [d] ∧ d ∈ cols) ∧
          (∀ c ∈ squares, ∀ n ∈ neighbors c, v' n ≠ v' c) by
        exact hloop (v (select_next_var a v)) (fun y hy => hy) h
      intro xs
      induction xs with
      | nil =>
        intro _ hb
        rw [btLoop] at hb
        exfalso
        injection hb with hb'
        injection hb' with hb1 hb2
        exact Bool.noConfusion hb1
      | cons x xs ihx =>
        intro hxs hb
        rw [btLoop] at hb
        by_cases hbt : BT_constraint_check x (select_next_var a v) a = true
        · rw [if_pos hbt] at hb
          have hxv : x ∈ v (select_next_var a v) := hxs x (List.mem_cons_self _ _)
          cases hres : backtrack fuel ((select_next_var a v, x) :: a)
              (forward_check v x (select_next_var a v)) with
          | none =>
            rw [hres] at hb
            exact Option.noConfusion hb
          | some p =>
            rw [hres] at hb
            obtain ⟨b2, v2⟩ := p
            cases b2 with
            | false =>
              exact ihx (fun y hy => hxs y (List.mem_cons_of_mem _ hy)) hb
            | true =>
              have hv2 : v2 = v' := by simpa using hb
              subst hv2
              -- the BT check says no assigned neighbor holds x
              have hbtspec : ∀ q ∈ a, q.1 ∈ neighbors (select_next_var a v) → q.2 ≠ x := by
                intro q hq hqn he
                rw [BT_constraint_check, List.all_eq_true] at hbt
                have h1 := hbt q.1 hqn
                rw [lookup_of_mem_nodup hnd hq] at h1
                have h2 : (if q.2 = x then false else true) = true := h1
                rw [if_pos he] at h2
                exact Bool.noConfusion h2
              have hfc := @forward_check_subset v x (select_next_var a v) hxv
              obtain ⟨hsub2, hsingle2, hdiff2⟩ := ih ((select_next_var a v, x) :: a)
                (forward_check v x (select_next_var a v)) v2
                (by
                  intro k hk
                  rw [List.map_cons] at hk
                  rcases List.mem_cons.mp hk with rfl | hk'
                  · exact hXisq
                  · exact hkeys k hk')
                (by
                  rw [List.map_cons]
                  exact List.nodup_cons.mpr ⟨hXina, hnd⟩)
                (by
                  intro p hp
                  rcases List.mem_cons.mp hp with rfl | hp'
                  · rw [forward_check_apply, if_pos rfl]
                  · have hp1 : p.1 ≠ select_next_var a v := by
                      intro he
                      exact hXina (he ▸ List.mem_map.mpr ⟨p, hp', rfl⟩)
                    rw [forward_check_apply, if_neg hp1]
                    by_cases hpn : p.1 ∈ neighbors (select_next_var a v)
                    · rw [if_pos hpn, hmatch p hp']
                      rw [List.filter_eq_self]
                      intro z hz
                      rw [List.mem_singleton.mp hz]
                      exact decide_eq_true (hbtspec p hp' hpn)
                    · rw [if_neg hpn]
                      exact hmatch p hp')
                (by
                  intro p hp q hq hqn
                  rcases List.mem_cons.mp hp with rfl | hp' <;>
                    rcases List.mem_cons.mp hq with rfl | hq'
                  · exact absurd hqn (not_mem_neighbors_self _)
                  · exact hbtspec q hq' hqn
                  · intro he
                    have hrev : p.1 ∈ neighbors (select_next_var a v) :=
                      neighbors_symm.mp hqn
                    exact hbtspec p hp' hrev he.symm
                  · exact hcons p hp' q hq' hqn)
                (by
                  intro c hc y hy
                  exact hdig c hc y (hfc c hy))
                hres
              exact ⟨fun c => fun y hy => hfc c (hsub2 c hy), hsingle2, hdiff2⟩
        · rw [if_neg hbt] at hb
          exact ihx (fun y hy => hxs y (List.mem_cons_of_mem _ hy)) hb

/-! ## Putting the solver together -/

/-- `AC3` always returns (its fuel is sufficient). -/
theorem AC3_isSome (v : Values) : ∃ v1 b, AC3 v = some (v1, b) := by
  rw [AC3]
  cases h : ac3Loop (20 * totalSize v + constraints.length + 1) constraints v with
  | none =>
    exact absurd h
      (ac3Loop_ne_none _ _ _ qinv_constraints (Nat.lt_succ_self _))
  | some p => exact ⟨p.1, p.2, rfl⟩

theorem foldl_append_eq (v : Values) :
    ∀ (l : List String) (init : List Char),
      l.foldl (fun out c => out ++ v c) init = init ++ l.flatMap v := by
  intro l
  induction l with
  | nil => intro init; simp
  | cons c l ih =>
    intro init
    rw [List.foldl_cons, ih, List.flatMap_cons, List.append_assoc]

theorem write_eq_flatMap (v : Values) : write v = squares.flatMap v := by
  rw [write, foldl_append_eq, List.nil_append]

theorem flatMap_eq_map_of_singleton {f : String → Char} :
    ∀ (l : List String) (v : Values), (∀ c ∈ l, v c = [f c]) → l.flatMap v = l.map f := by
  intro l
  induction l with
  | nil => intro v _; rfl
  | cons c l ih =>
    intro v h
    rw [List.flatMap_cons, List.map_cons, h c (List.mem_cons_self _ _),
      ih v (fun d hd => h d (List.mem_cons_of_mem _ hd))]
    rfl

/-- Reading the serialized board back: position `indexOf c` of
`squares.map f ++ rest` holds `f c`. -/
theorem map_getD_indexOf {f : String → Char} {c : String} (hc : c ∈ squares)
    (rest : List Char) (d : Char) :
    ((squares.map f) ++ rest).getD (squares.indexOf c) d = f c := by
  have hlt : squares.indexOf c < squares.length := List.indexOf_lt_length.mpr hc
  have hlt' : squares.indexOf c < (squares.map f).length := by
    rw [List.length_map]; exact hlt
  rw [List.getD_append _ _ _ _ hlt', List.getD_eq_get _ _ hlt']
  rw [List.get_map]
  congr 1
  exact List.indexOf_get hlt

/-- What `set_values` puts in each square's domain. -/
theorem set_values_apply {grid : List Char} {v0 : Values}
    (hv : set_values grid = some v0) {c : String} (hc : c ∈ squares) :
    v0 c = if grid.getD (squares.indexOf c) ' ' ≠ '0' then
      [grid.getD (squares.indexOf c) ' '] else cols := by
  rw [set_values] at hv
  by_cases h : grid.length < 81
  · rw [if_pos h] at hv
    exact Option.noConfusion hv
  · rw [if_neg h] at hv
    obtain rfl := Option.some.inj hv
    show (if c ∈ squares then _ else _) = _
    rw [if_pos hc]

theorem set_values_isSome {grid : List Char} (h : ¬grid.length < 81) :
    ∃ v0, set_values grid = some v0 := by
  rw [set_values, if_neg h]
  exact ⟨_, rfl⟩

/-- A list with at most one element containing `y` is exactly `[y]`. -/
theorem length_le_one_mem_eq {l : List Char} {y : Char} (h1 : l.length ≤ 1) (h2 : y ∈ l) :
    l = [y] := by
  match l, h1, h2 with
  | [y'], _, h2 =>
    rw [List.mem_singleton.mp h2]

/-- Distinct digits on every neighboring pair make every unit's image a
permutation of `cols`. -/
theorem unit_map_perm {board : String → Char}
    (hd : ∀ c ∈ squares, board c ∈ cols)
    (hdiff : ∀ c ∈ squares, ∀ n ∈ neighbors c, board n ≠ board c) :
    ∀ u ∈ contraint_sets, (u.map board).Perm cols := by
  intro u hu
  have hsub : ∀ y ∈ u.map board, y ∈ cols := by
    intro y hy
    rcases List.mem_map.mp hy with ⟨c, hcu, rfl⟩
    exact hd c (units_subset_squares u hu c hcu)
  have hnd : (u.map board).Nodup := by
    apply List.Nodup.map_on _ (units_nodup_length u hu).1
    intro c hcu d hdu he
    by_contra hne
    exact hdiff c (units_subset_squares u hu c hcu) d
      (unit_mem_neighbors hu hcu hdu (fun h => hne h.symm)) he.symm
  have hsp := List.subperm_of_subset hnd hsub
  apply hsp.perm_of_length_le
  rw [List.length_map, (units_nodup_length u hu).2, cols_length]

theorem set_values_digits {grid : List Char} {v0 : Values} (h81 : grid.length = 81)
    (hdig : ∀ ch ∈ grid, ch = '0' ∨ ch ∈ cols) (hv : set_values grid = some v0) :
    ∀ c ∈ squares, ∀ y ∈ v0 c, y ∈ cols := by
  intro c hc y hy
  rw [set_values_apply hv hc] at hy
  by_cases hz : grid.getD (squares.indexOf c) ' ' ≠ '0'
  · rw [if_pos hz] at hy
    obtain rfl := List.mem_singleton.mp hy
    have hlt : squares.indexOf c < grid.length := by
      rw [h81, ← squares_length]
      exact List.indexOf_lt_length.mpr hc
    have hmem : grid.getD (squares.indexOf c) ' ' ∈ grid := by
      rw [List.getD_eq_getElem _ _ hlt]
      exact List.getElem_mem hlt
    rcases hdig _ hmem with h0 | hcol
    · exact absurd h0 hz
    · exact hcol
  · rw [if_neg hz] at hy
    exact hy

theorem set_values_solin {grid : List Char} {v0 : Values} {sol : String → Char}
    (hv : set_values grid = some v0) (hgood : goodSol sol)
    (hext : ∀ c ∈ squares, grid.getD (squares.indexOf c) ' ' ≠ '0' →
      sol c = grid.getD (squares.indexOf c) ' ') :
    SolIn sol v0 := by
  intro c hc
  rw [set_values_apply hv hc]
  by_cases hz : grid.getD (squares.indexOf c) ' ' ≠ '0'
  · rw [if_pos hz, hext c hc hz]
    exact List.mem_singleton.mpr rfl
  · rw [if_neg hz]
    exact hgood.1 c hc

theorem filter_unassigned_nil :
    squares.filter (fun s => s ∉ (([] : Assignment)).map Prod.fst) = squares := by
  rw [List.filter_eq_self]
  intro s _
  simp

/-- Master theorem: on an 81-character digit string admitting a valid solution
extending its clues, the solver produces a line whose first 81 positions (read
back by cell index) form a digit board that respects the initial domains and
has distinct digits on every neighboring pair. -/
theorem solver_spec {input : List Char} {sol : String → Char}
    (h81 : input.length = 81)
    (hdig : ∀ ch ∈ input, ch = '0' ∨ ch ∈ cols)
    (hgood : goodSol sol)
    (hext : ∀ c ∈ squares, input.getD (squares.indexOf c) ' ' ≠ '0' →
        sol c = input.getD (squares.indexOf c) ' ') :
    ∃ (v0 : Values) (line : List Char) (board : String → Char),
      set_values input = some v0 ∧ solver v0 = some line ∧
      (∀ c ∈ squares, line.getD (squares.indexOf c) ' ' = board c) ∧
      (∀ c ∈ squares, board c ∈ v0 c) ∧
      (∀ c ∈ squares, board c ∈ cols) ∧
      (∀ c ∈ squares, ∀ n ∈ neighbors c, board n ≠ board c) := by
  obtain ⟨v0, hv0⟩ := @set_values_isSome input (by omega)
  have hsolin0 : SolIn sol v0 := set_values_solin hv0 hgood hext
  have hdig0 : ∀ c ∈ squares, ∀ y ∈ v0 c, y ∈ cols := set_values_digits h81 hdig hv0
  obtain ⟨v1, b, hac3⟩ := AC3_isSome v0
  have hloopeq : ac3Loop (20 * totalSize v0 + constraints.length + 1) constraints v0 =
      some (v1, b) := by
    rw [AC3] at hac3
    exact hac3
  have hsolin1 : SolIn sol v1 :=
    ac3Loop_solin hgood _ _ _ _ _ qinv_constraints hsolin0 hloopeq
  have hsub1 : ∀ c, v1 c ⊆ v0 c :=
    ac3Loop_subset _ _ _ _ _ qinv_constraints hloopeq
  have hdig1 : ∀ c ∈ squares, ∀ y ∈ v1 c, y ∈ cols :=
    fun c hc y hy => hdig0 c hc y (hsub1 c hy)
  by_cases hsolved : solved v1 = true
  · -- solved by propagation alone; the final domains are exactly the solution
    have hsingle : ∀ c ∈ squares, v1 c = [sol c] := by
      intro c hc
      rw [solved, List.all_eq_true] at hsolved
      exact length_le_one_mem_eq (by simpa using hsolved c hc) (hsolin1 c hc)
    refine ⟨v0, write v1 ++ " AC3".toList, sol, hv0, ?_, ?_,
      fun c hc => hsolin0 c hc, hgood.1, hgood.2⟩
    · rw [solver, hac3]
      show (if solved v1 = true then some (write v1 ++ " AC3".toList)
        else match BTS v1 with
          | none => none
          | some (_, v2) => some (write v2 ++ " BTS".toList)) =
        some (write v1 ++ " AC3".toList)
      rw [if_pos hsolved]
    · intro c hc
      rw [write_eq_flatMap, flatMap_eq_map_of_singleton squares v1 hsingle,
        map_getD_indexOf hc]
  · -- fall through to the (complete and sound) search
    obtain ⟨v2, hbt⟩ := backtrack_complete hgood (squares.length + 1) [] v1
      (by intro k hk; simp at hk) (by intro p hp; simp at hp) hsolin1
      (by rw [filter_unassigned_nil, squares_length]; omega)
    obtain ⟨hsub2, hsingle2, hdiff2⟩ := backtrack_sound _ [] v1 v2
      (by intro k hk; simp at hk) (by simp) (by intro p hp; simp at hp)
      (by intro p hp q hq; simp at hp) hdig1 hbt
    have hmap : ∀ c ∈ squares, v2 c = [(v2 c).headD ' '] := by
      intro c hc
      obtain ⟨d, hd, -⟩ := hsingle2 c hc
      rw [hd]
      rfl
    refine ⟨v0, write v2 ++ " BTS".toList, fun c => (v2 c).headD ' ', hv0, ?_, ?_, ?_, ?_, ?_⟩
    · rw [solver, hac3]
      show (if solved v1 = true then some (write v1 ++ " AC3".toList)
        else match BTS v1 with
          | none => none
          | some (_, w) => some (write w ++ " BTS".toList)) =
        some (write v2 ++ " BTS".toList)
      rw [if_neg hsolved, BTS, hbt]
    · intro c hc
      rw [write_eq_flatMap, flatMap_eq_map_of_singleton squares v2 hmap,
        map_getD_indexOf hc]
    · intro c hc
      show (v2 c).headD ' ' ∈ v0 c
      obtain ⟨d, hd, -⟩ := hsingle2 c hc
      rw [hd]
      exact hsub1 c (hsub2 c (by rw [hd]; exact List.mem_singleton.mpr rfl))
    · intro c hc
      show (v2 c).headD ' ' ∈ cols
      obtain ⟨d, hd, hdc⟩ := hsingle2 c hc
      rw [hd]
      exact hdc
    · intro c hc n hn
      show (v2 n).headD ' ' ≠ (v2 c).headD ' '
      have hnsq := neighbors_subset_squares hn
      obtain ⟨dc, hdc, -⟩ := hsingle2 c hc
      obtain ⟨dn, hdn, -⟩ := hsingle2 n hnsq
      have hne := hdiff2 c hc n hn
      rw [hdc, hdn] at hne
      rw [hdc, hdn]
      intro he
      apply hne
      rw [List.headD_cons, List.headD_cons] at he
      rw [he]

/-! ## Claim C1 and C2 theorems -/

/-- Claim C1: for every 81-character input over digits that admits a valid
Sudoku solution extending its clues, the 81-character board part of the line
returned by `solver` is a valid solution — in every one of the 27 units the 9
output digits (read at the unit's row-major positions) are a permutation of
1–9. -/
theorem C1_solution_validity {input : List Char}
    (h81 : input.length = 81)
    (hdig : ∀ ch ∈ input, ch = '0' ∨ ch ∈ cols)
    (hsol : ∃ sol : String → Char, goodSol sol ∧
      ∀ c ∈ squares, input.getD (squares.indexOf c) ' ' ≠ '0' →
        sol c = input.getD (squares.indexOf c) ' ') :
    ∃ (v0 : Values) (line : List Char), set_values input = some v0 ∧
      solver v0 = some line ∧
      ∀ u ∈ contraint_sets,
        (u.map (fun c => line.getD (squares.indexOf c) ' ')).Perm cols := by
  obtain ⟨sol, hgood, hext⟩ := hsol
  obtain ⟨v0, line, board, hv0, hline, hread, hin0, hcols, hdiff⟩ :=
    solver_spec h81 hdig hgood hext
  refine ⟨v0, line, hv0, hline, ?_⟩
  intro u hu
  have hperm := unit_map_perm hcols hdiff u hu
  have hmapeq : u.map (fun c => line.getD (squares.indexOf c) ' ') = u.map board := by
    apply List.map_congr_left
    intro c hcu
    exact hread c (units_subset_squares u hu c hcu)
  rw [hmapeq]
  exact hperm

/-- Claim C2: on such inputs, every non-`'0'` input position keeps its digit
at the same row-major position of the output line. -/
theorem C2_clue_fidelity {input : List Char}
    (h81 : input.length = 81)
    (hdig : ∀ ch ∈ input, ch = '0' ∨ ch ∈ cols)
    (hsol : ∃ sol : String → Char, goodSol sol ∧
      ∀ c ∈ squares, input.getD (squares.indexOf c) ' ' ≠ '0' →
        sol c = input.getD (squares.indexOf c) ' ') :
    ∃ (v0 : Values) (line : List Char), set_values input = some v0 ∧
      solver v0 = some line ∧
      ∀ i, i < 81 → input.getD i ' ' ≠ '0' → line.getD i ' ' = input.getD i ' ' := by
  obtain ⟨sol, hgood, hext⟩ := hsol
  obtain ⟨v0, line, board, hv0, hline, hread, hin0, hcols, hdiff⟩ :=
    solver_spec h81 hdig hgood hext
  refine ⟨v0, line, hv0, hline, ?_⟩
  intro i hi hclue
  have hilt : i < squares.length := by rw [squares_length]; omega
  have hc : squares.get ⟨i, hilt⟩ ∈ squares := List.get_mem squares i hilt
  have hidx : squares.indexOf (squares.get ⟨i, hilt⟩) = i :=
    List.get_indexOf squares_nodup ⟨i, hilt⟩
  have h1 := hread _ hc
  rw [hidx] at h1
  have h2 : v0 (squares.get ⟨i, hilt⟩) = [input.getD i ' '] := by
    rw [set_values_apply hv0 hc, hidx, if_pos hclue]
  have h3 := hin0 _ hc
  rw [h2] at h3
  rw [h1, List.mem_singleton.mp h3]

/-- The spec's example solved board, used as a concrete solvable input. -/
def demoSolvedInput : List Char :=
  "483921657967345821251876493548132976729564138136798245372689514814253769695417382".toList

/-- The same board as a cell-indexed function. -/
def demoSolvedSol : String → Char :=
  fun c => demoSolvedInput.getD (squares.indexOf c) ' '

set_option maxRecDepth 40000 in
theorem C1_solution_validity_witness :
    ∃ (v0 : Values) (line : List Char), set_values demoSolvedInput = some v0 ∧
      solver v0 = some line ∧
      ∀ u ∈ contraint_sets,
        (u.map (fun c => line.getD (squares.indexOf c) ' ')).Perm cols :=
  C1_solution_validity (by decide) (by decide)
    ⟨demoSolvedSol, ⟨by decide, by decide⟩, by decide⟩

/-- The spec's example puzzle (with blanks), whose unique solution is
`demoSolvedInput`. -/
def demoPuzzleInput : List Char :=
  "003020600900305001001806400008102900700000008006708200002609500800203009005010300".toList

set_option maxRecDepth 40000 in
theorem C2_clue_fidelity_witness :
    ∃ (v0 : Values) (line : List Char), set_values demoPuzzleInput = some v0 ∧
      solver v0 = some line ∧
      ∀ i, i < 81 → demoPuzzleInput.getD i ' ' ≠ '0' →
        line.getD i ' ' = demoPuzzleInput.getD i ' ' :=
  C2_clue_fidelity (by decide) (by decide)
    ⟨demoSolvedSol, ⟨by decide, by decide⟩, by decide⟩

/-! ## Claim C8: neighbor structure -/

/-- Claim C8: the neighbor relation is symmetric, every one of the 81 cells
has exactly 20 neighbors, and `csp.constraints` holds exactly 1620 distinct
ordered pairs. -/
theorem C8_neighbor_structure :
    (∀ c d : String, d ∈ neighbors c ↔ c ∈ neighbors d) ∧
    (∀ c ∈ squares, (neighbors c).length = 20) ∧
    constraints.length = 1620 ∧ constraints.Nodup := by
  refine ⟨fun c d => neighbors_symm, neighbors_length, ?_, ?_⟩
  · rw [constraints, List.length_flatMap]
    have hrep : squares.map (List.length ∘ fun v => (neighbors v).map (fun n => (v, n))) =
        List.replicate 81 20 := by
      rw [List.eq_replicate_iff]
      refine ⟨by rw [List.length_map, squares_length], ?_⟩
      intro b hb
      rcases List.mem_map.mp hb with ⟨v, hv, rfl⟩
      show ((neighbors v).map (fun n => (v, n))).length = 20
      rw [List.length_map]
      exact neighbors_length v hv
    rw [hrep, List.sum_replicate, smul_eq_mul]
  · rw [constraints, List.nodup_flatMap]
    refine ⟨?_, ?_⟩
    · intro v hv
      exact (neighbors_nodup v).map (fun h1 h2 h => congrArg Prod.snd h)
    · apply List.Pairwise.imp ?_ squares_nodup
      intro v v' hne p hp hp'
      rcases List.mem_map.mp hp with ⟨n, hn, rfl⟩
      rcases List.mem_map.mp hp' with ⟨n', hn', he⟩
      injection he with he1 he2
      exact hne he1.symm

theorem C8_neighbor_structure_witness :
    ("B1" ∈ neighbors "A1" ↔ "A1" ∈ neighbors "B1") ∧ (neighbors "A1").length = 20 :=
  ⟨C8_neighbor_structure.1 "A1" "B1", C8_neighbor_structure.2.1 "A1" (by decide)⟩

/-! ## Claim C9: revise semantics -/

/-- Claim C9: for an actual arc, `revise` removes a candidate `x` of `Xi`
exactly when every value currently in `Xj`'s domain equals `x`; if `Xj`'s
domain is empty, `Xi`'s domain is emptied entirely. -/
theorem C9_revise_semantics {v : Values} {Xi Xj : String} (hn : Xj ∈ neighbors Xi) :
    (∀ x ∈ v Xi, (x ∉ (revise v Xi Xj).1 Xi ↔ ∀ c ∈ v Xj, c = x)) ∧
    (v Xj = [] → (revise v Xi Xj).1 Xi = []) := by
  have hji : Xj ≠ Xi := fun h => not_mem_neighbors_self Xi (h ▸ hn)
  constructor
  · intro x hx
    rw [revise_apply_self hji, ← AC_check_eq_true_iff (v := v) (x := x) hn]
    constructor
    · intro hnot
      cases hc : AC_constraint_check v x Xi Xj with
      | true => rfl
      | false =>
        exfalso
        apply hnot
        rw [List.mem_filter]
        exact ⟨hx, by rw [hc]; rfl⟩
    · intro hc hmem
      rw [List.mem_filter, hc] at hmem
      exact Bool.noConfusion hmem.2
  · intro hempty
    rw [revise_apply_self hji, List.filter_eq_nil_iff]
    intro a ha
    have hc : AC_constraint_check v a Xi Xj = true := by
      rw [AC_constraint_check, hempty]
      rfl
    rw [hc]
    exact fun hfalse => Bool.noConfusion hfalse

/-- A small state: `Xi = "A1"` has candidates 5 and 6, its neighbor
`Xj = "B1"` is pinned to 5. -/
def demoReviseV : Values :=
  fun c => if c = "A1" then ['5', '6'] else if c = "B1" then ['5'] else cols

set_option maxRecDepth 40000 in
theorem C9_revise_semantics_witness :
    ('5' ∉ (revise demoReviseV "A1" "B1").1 "A1" ↔ ∀ c ∈ demoReviseV "B1", c = '5') ∧
    ('6' ∉ (revise demoReviseV "A1" "B1").1 "A1" ↔ ∀ c ∈ demoReviseV "B1", c = '6') :=
  ⟨(C9_revise_semantics (by decide)).1 '5' (by decide),
   (C9_revise_semantics (by decide)).1 '6' (by decide)⟩

/-! ## Claim C10: the solved check -/

/-- A state with one emptied domain and all others singletons. -/
def demoEmptyV : Values := fun c => if c = "A1" then [] else ['1']

theorem solved_iff (v : Values) : solved v = true ↔ ∀ c ∈ squares, (v c).length ≤ 1 := by
  rw [solved, List.all_eq_true]
  constructor
  · intro h c hc
    simpa using h c hc
  · intro h c hc
    exact decide_eq_true (h c hc)

/-- Claim C10: `solved` returns `True` iff no cell's domain has more than one
value; in particular a state with an emptied domain (and no multi-candidate
domain) is reported solved — the guard does not distinguish empty from
resolved. -/
theorem C10_solved_semantics :
    (∀ v : Values, solved v = true ↔ ∀ c ∈ squares, (v c).length ≤ 1) ∧
    (solved demoEmptyV = true ∧ demoEmptyV "A1" = []) := by
  refine ⟨solved_iff, by decide, rfl⟩

theorem C10_solved_semantics_witness : solved demoEmptyV = true :=
  (C10_solved_semantics.1 demoEmptyV).mpr (by decide)

/-! ## Claim C7: AC3 return value and early failure -/

/-- Claim C7: the worklist draining yields `True`; a revision that empties the
processed cell's domain returns `False` at once, whatever arcs remain; and
(starting from all-non-empty domains) the returned boolean is `True` exactly
when no domain was emptied — on `False` some domain is empty at return. -/
theorem C7_ac3_return_semantics :
    (∀ (fuel : Nat) (v : Values), ac3Loop (fuel + 1) [] v = some (v, true)) ∧
    (∀ (fuel : Nat) (Xi Xj : String) (rest : List (String × String)) (v : Values),
      (revise v Xi Xj).2 = true → (revise v Xi Xj).1 Xi = [] →
      ac3Loop (fuel + 1) ((Xi, Xj) :: rest) v = some ((revise v Xi Xj).1, false)) ∧
    (∀ (fuel : Nat) (q : List (String × String)) (v v' : Values) (b : Bool),
      QInv q → (∀ c ∈ squares, v c ≠ []) → ac3Loop fuel q v = some (v', b) →
      ((b = true → ∀ c ∈ squares, v' c ≠ []) ∧ (b = false → ∃ c ∈ squares, v' c = []))) := by
  refine ⟨fun fuel v => by rw [ac3Loop], ?_, ?_⟩
  · intro fuel Xi Xj rest v h1 h2
    rw [ac3Loop, if_pos h1, if_pos (by rw [h2]; rfl)]
  · intro fuel
    induction fuel with
    | zero =>
      intro q v v' b _ _ h
      rw [ac3Loop] at h
      exact Option.noConfusion h
    | succ fuel ih =>
      intro q v v' b hq hne h
      match q with
      | [] =>
        rw [ac3Loop] at h
        obtain ⟨rfl, rfl⟩ : v = v' ∧ true = b := by simpa using h
        exact ⟨fun _ => hne, fun hf => Bool.noConfusion hf⟩
      | (Xi, Xj) :: rest =>
        have harc := hq (Xi, Xj) (List.mem_cons_self _ _)
        have hji : Xj ≠ Xi := fun he => not_mem_neighbors_self Xi (he ▸ harc.2)
        rw [ac3Loop] at h
        by_cases hrev : (revise v Xi Xj).2 = true
        · rw [if_pos hrev] at h
          by_cases hlen : ((revise v Xi Xj).1 Xi).length = 0
          · rw [if_pos hlen] at h
            obtain ⟨rfl, rfl⟩ : (revise v Xi Xj).1 = v' ∧ false = b := by simpa using h
            refine ⟨fun ht => Bool.noConfusion ht, fun _ => ⟨Xi, harc.1, ?_⟩⟩
            exact List.length_eq_zero.mp hlen
          · rw [if_neg hlen] at h
            apply ih _ _ _ _
              (qinv_append (fun p hp => hq p (List.mem_cons_of_mem _ hp)) qinv_requeue)
              ?_ h
            intro c hc
            by_cases hcXi : c = Xi
            · subst hcXi
              intro he
              rw [he] at hlen
              exact hlen rfl
            · rw [revise_apply_other hji hcXi]
              exact hne c hc
        · rw [if_neg hrev] at h
          rw [revise_false_eq hji (Bool.not_eq_true _ ▸ hrev)] at h
          exact ih _ _ _ _ (fun p hp => hq p (List.mem_cons_of_mem _ hp)) hne h

/-- Two conflicting singleton neighbors ("A1" and "B1" both pinned to 5). -/
def demoConflictV : Values :=
  fun c => if c = "A1" then ['5'] else if c = "B1" then ['5'] else cols

set_option maxRecDepth 40000 in
theorem C7_ac3_return_semantics_witness :
    ac3Loop 1 [] demoConflictV = some (demoConflictV, true) ∧
    ac3Loop 1 [("A1", "B1")] demoConflictV =
      some ((revise demoConflictV "A1" "B1").1, false) ∧
    (∀ c ∈ squares, demoConflictV c ≠ []) :=
  ⟨C7_ac3_return_semantics.1 0 demoConflictV,
   C7_ac3_return_semantics.2.1 0 "A1" "B1" [] demoConflictV (by decide) (by decide),
   (C7_ac3_return_semantics.2.2 1 [] demoConflictV demoConflictV true
      (fun p hp => absurd hp (List.not_mem_nil _))
      (by decide) (C7_ac3_return_semantics.1 0 demoConflictV)).1 rfl⟩

/-! ## Claim C4: arcs re-enqueued after a revision (corrected) -/

/-- A state where processing the arc ("A1","B1") removes 5 from "A1" and
leaves it non-empty. -/
def demoReqV : Values :=
  fun c => if c = "A1" then ['5', '6'] else if c = "B1" then ['5'] else cols

set_option maxRecDepth 40000 in
/-- Counterexample to claim C4 as stated: processing the arc (X, Y) =
("A1", "B1") removes a value and leaves X non-empty, yet (Y, X) = ("B1", "A1")
IS among the arcs put back on the worklist — the code's `- set(Xj)` subtracts
the *characters* of Y and removes nothing. -/
theorem C4_counterexample :
    (revise demoReqV "A1" "B1").2 = true ∧
    (revise demoReqV "A1" "B1").1 "A1" = ['6'] ∧
    ("B1", "A1") ∈ ac3_requeue "A1" "B1" ∧
    ac3Loop 2 [("A1", "B1")] demoReqV =
      ac3Loop 1 (ac3_requeue "A1" "B1") (revise demoReqV "A1" "B1").1 :=
  ⟨by decide, by decide, by decide, by rfl⟩

/-- Claim C4 amended: when processing (X, Y) removes at least one value and
X's domain stays non-empty, the arcs put back are exactly (Z, X) for *every*
neighbor Z of X — including (Y, X), since `set(Y)` holds Y's characters and
never matches a two-character neighbor name. -/
theorem C4_requeue_all_neighbors (fuel : Nat) (Xi Xj : String)
    (rest : List (String × String)) (v : Values)
    (h1 : (revise v Xi Xj).2 = true) (h2 : (revise v Xi Xj).1 Xi ≠ []) :
    ac3_requeue Xi Xj = (neighbors Xi).map (fun Xk => (Xk, Xi)) ∧
    ac3Loop (fuel + 1) ((Xi, Xj) :: rest) v =
      ac3Loop fuel (rest ++ (neighbors Xi).map (fun Xk => (Xk, Xi)))
        (revise v Xi Xj).1 := by
  refine ⟨ac3_requeue_eq Xi Xj, ?_⟩
  rw [ac3Loop, if_pos h1,
    if_neg (fun h0 => h2 (List.length_eq_zero.mp h0)), ac3_requeue_eq]

set_option maxRecDepth 40000 in
theorem C4_requeue_all_neighbors_witness :
    ac3_requeue "A1" "B1" = (neighbors "A1").map (fun Xk => (Xk, "A1")) ∧
    ac3Loop 1 [("A1", "B1")] demoReqV =
      ac3Loop 0 ([] ++ (neighbors "A1").map (fun Xk => (Xk, "A1")))
        (revise demoReqV "A1" "B1").1 :=
  C4_requeue_all_neighbors 0 "A1" "B1" [] demoReqV (by decide) (by decide)

/-! ## Claim C6: rollback on failure -/

/-- Claim C6: whenever a `backtrack` call returns `"fail"`, the domain map at
the moment of return equals the domain map at entry — no residual pruning. -/
theorem C6_rollback_lossless (fuel : Nat) (a : Assignment) (v r : Values)
    (h : backtrack fuel a v = some (false, r)) : r = v := by
  match fuel with
  | 0 =>
    rw [backtrack] at h
    exact Option.noConfusion h
  | fuel + 1 =>
    rw [backtrack] at h
    by_cases hcomp : completed a = true
    · rw [if_pos hcomp] at h
      simp at h
    · rw [if_neg hcomp] at h
      rcases btLoop_fail _ _ _ _ _ _ h with h1 | h1 <;> exact h1

/-- A state whose MRV pick ("A1") has an empty domain, so the search fails
immediately. -/
def demoFailV : Values := fun c => if c = "A1" then [] else ['1']

set_option maxRecDepth 40000 in
theorem C6_rollback_lossless_witness :
    backtrack 1 [] demoFailV = some (false, demoFailV) ∧ demoFailV = demoFailV :=
  ⟨by rfl, C6_rollback_lossless 1 [] demoFailV demoFailV (by rfl)⟩

/-! ## Claim C5: input validation (corrected) -/

/-- Claim C5 amended: constructing the board model fails (Python: an
`IndexError` inside `set_values`) exactly when the input is shorter than 81
characters; there is no digit-alphabet or exact-length check, so any input of
length ≥ 81 — including ones with non-digit characters — is accepted. -/
theorem C5_no_input_validation (grid : List Char) :
    set_values grid = none ↔ grid.length < 81 := by
  rw [set_values]
  by_cases h : grid.length < 81
  · rw [if_pos h]
    simp [h]
  · rw [if_neg h]
    simp [h]

/-- An 81-character input whose first character is the letter 'x'. -/
def demoBadInput : List Char :=
  "x83921657967345821251876493548132976729564138136798245372689514814253769695417382".toList

/-- Counterexample to claim C5 as stated: this input has length 81 but
contains a letter, yet `set_values` succeeds — and quietly stores 'x' as
cell A1's one-character domain. -/
theorem C5_counterexample :
    demoBadInput.length = 81 ∧ 'x' ∈ demoBadInput ∧
    (set_values demoBadInput).isSome = true ∧
    ((set_values demoBadInput).getD (fun _ => [])) "A1" = ['x'] :=
  ⟨by decide, by decide, by decide, by decide⟩

/-! ## Claim C3: the output tag (corrected) -/

theorem space_AC3_toList : (" AC3".toList : List Char) = ' ' :: "AC3".toList := by decide

theorem space_BTS_toList : (" BTS".toList : List Char) = ' ' :: "BTS".toList := by decide

theorem suffix_tag_AC3 (w : List Char) : "AC3".toList <:+ w ++ " AC3".toList :=
  ⟨w ++ [' '], by rw [List.append_assoc, space_AC3_toList]; rfl⟩

theorem suffix_tag_BTS (w : List Char) : "BTS".toList <:+ w ++ " BTS".toList :=
  ⟨w ++ [' '], by rw [List.append_assoc, space_BTS_toList]; rfl⟩

theorem getLast?_tail_tag {w tag : List Char} {d : Char} (hne : tag ≠ [])
    (htag : tag.getLast? = some d) : (w ++ tag).getLast? = some d := by
  rw [List.getLast?_append_of_ne_nil _ hne]
  exact htag

theorem not_suffix_AC3_of_BTS (w : List Char) : ¬("AC3".toList <:+ w ++ " BTS".toList) := by
  rintro ⟨t, ht⟩
  have h1 : (t ++ "AC3".toList).getLast? = some '3' :=
    @getLast?_tail_tag t ("AC3".toList) '3' (by decide) (by decide)
  rw [ht, @getLast?_tail_tag w (" BTS".toList) 'S' (by decide) (by decide)] at h1
  exact absurd (Option.some.inj h1) (by decide)

theorem not_suffix_BTS_of_AC3 (w : List Char) : ¬("BTS".toList <:+ w ++ " AC3".toList) := by
  rintro ⟨t, ht⟩
  have h1 : (t ++ "BTS".toList).getLast? = some 'S' :=
    @getLast?_tail_tag t ("BTS".toList) 'S' (by decide) (by decide)
  rw [ht, @getLast?_tail_tag w (" AC3".toList) '3' (by decide) (by decide)] at h1
  exact absurd (Option.some.inj h1) (by decide)

/-- Claim C3 amended: the produced line ends with the tag "AC3" iff at the
moment `AC3` returns *no cell's domain holds two or more candidates* — an
emptied domain also passes this check, so "every domain a singleton" is not
equivalent; otherwise the line ends with "BTS". -/
theorem C3_tag_semantics (v v1 : Values) (b : Bool) (line : List Char)
    (hac3 : AC3 v = some (v1, b)) (hline : solver v = some line) :
    ("AC3".toList <:+ line ↔ ∀ c ∈ squares, (v1 c).length ≤ 1) ∧
    ("BTS".toList <:+ line ↔ ¬∀ c ∈ squares, (v1 c).length ≤ 1) := by
  rw [solver, hac3] at hline
  replace hline : (if solved v1 = true then some (write v1 ++ " AC3".toList)
      else match BTS v1 with
        | none => none
        | some (_, w) => some (write w ++ " BTS".toList)) = some line := hline
  by_cases hsolved : solved v1 = true
  · rw [if_pos hsolved] at hline
    have hcond := (solved_iff v1).mp hsolved
    have hl : line = write v1 ++ " AC3".toList := (Option.some.inj hline).symm
    rw [hl]
    exact ⟨⟨fun _ => hcond, fun _ => suffix_tag_AC3 _⟩,
      ⟨fun hs => absurd hs (not_suffix_BTS_of_AC3 _), fun hn => absurd hcond hn⟩⟩
  · rw [if_neg hsolved] at hline
    have hcond : ¬∀ c ∈ squares, (v1 c).length ≤ 1 :=
      fun hall => hsolved ((solved_iff v1).mpr hall)
    cases hbts : BTS v1 with
    | none =>
      rw [hbts] at hline
      exact Option.noConfusion hline
    | some p =>
      rw [hbts] at hline
      obtain ⟨b2, v2⟩ := p
      have hl : line = write v2 ++ " BTS".toList := (Option.some.inj hline).symm
      rw [hl]
      exact ⟨⟨fun hs => absurd hs (not_suffix_AC3_of_BTS _), fun hall => absurd hall hcond⟩,
        ⟨fun _ => hcond, fun _ => suffix_tag_BTS _⟩⟩

/-- A fully-clued contradictory board: each row is 123456789, so column
neighbors carry equal clues. -/
def demoContraInput : List Char :=
  "123456789123456789123456789123456789123456789123456789123456789123456789123456789".toList

/-- Its board model (construction succeeds: 81 digit characters). -/
def demoContraV : Values := (set_values demoContraInput).getD (fun _ => [])

/-- The state and flag at the moment `AC3` returns on it. -/
def demoContraAC3 : Values × Bool := (AC3 demoContraV).getD (fun _ => [], false)

/-- The line the solver emits for it: cell A1's domain was emptied by the very
first arc ("A1","D1"), so the board part has only 80 characters — and the tag
is "AC3". -/
def demoContraLine : List Char :=
  ("23456789123456789123456789123456789123456789123456789123456789123456789123456789 AC3").toList

set_option maxRecDepth 100000 in
set_option maxHeartbeats 4000000 in
/-- Counterexample to claim C3 as stated: on this input the solver produces a
line tagged "AC3" although, at the moment AC3 returned, cell "A1"'s domain was
*empty* — not a singleton.  (`solved` only rejects domains with two or more
candidates.) -/
theorem C3_counterexample :
    demoContraAC3.1 "A1" = [] ∧
    solved demoContraAC3.1 = true ∧
    solver demoContraV = some demoContraLine ∧
    "AC3".toList <:+ demoContraLine :=
  ⟨by decide, by decide, by decide, by decide⟩

set_option maxRecDepth 100000 in
set_option maxHeartbeats 4000000 in
theorem C3_tag_semantics_witness :
    ("AC3".toList <:+ demoContraLine ↔
      ∀ c ∈ squares, (demoContraAC3.1 c).length ≤ 1) ∧
    ("BTS".toList <:+ demoContraLine ↔
      ¬∀ c ∈ squares, (demoContraAC3.1 c).length ≤ 1) :=
  C3_tag_semantics demoContraV demoContraAC3.1 demoContraAC3.2 demoContraLine
    (by rfl) (by decide)

end Driver
